import Mathlib

/-! Alarm scheduler (`unused/cpp_version`).

A shallow embedding of `src/alarm_scheduler.cpp` and `src/alarm_client.cpp`.

A time point of `std::chrono::system_clock` is its count of nanoseconds since
the epoch, a signed 64-bit integer (the clock of libstdc++); `time_t` counts
seconds.
-/

namespace AlarmClock

/-! ## Data model -/

/-- The class `AlarmTask` (constructor arguments `trigger_time`, `alarm_id`,
`command`, stored in members of the same names). -/
structure AlarmTask where
  trigger_time : Int
  alarm_id : String
  command : String
deriving DecidableEq, Repr, Inhabited

/-- The comparison `AlarmTask::operator>`: only the trigger times are compared. -/
def AlarmTask.gt (a other : AlarmTask) : Bool :=
  decide (a.trigger_time > other.trigger_time)

/-! ## The member `tasks`

Modelled from the spec: the header `alarm_scheduler.hpp` is not among the
sources.  The spec calls the scheduler "min-heap-based" and the code orders
tasks with `operator>`, so `tasks` is a
`std::priority_queue<AlarmTask, std::vector<AlarmTask>, std::greater<AlarmTask>>`.
The queue is represented by its underlying vector; `push` is `push_back`
followed by `std::push_heap`, and `pop` is `std::pop_heap` followed by
`pop_back`, with the sift loops of the usual binary-heap implementation
(the library moves a hole and stores the held value at the end; here the held
value is written at every step, which gives the same final vector).
-/

/-- Element at index `i` of the vector (the default task when out of range). -/
def at_ (c : List AlarmTask) (i : Nat) : AlarmTask := c.getD i default

/-- Trigger time of the element at index `i`. -/
def key (c : List AlarmTask) (i : Nat) : Int := (at_ c i).trigger_time

/-- Index of the parent of node `i` in the implicit binary tree. -/
def parent (i : Nat) : Nat := (i - 1) / 2

/-- Exchange the elements at indices `i` and `j`. -/
def swapAt (c : List AlarmTask) (i j : Nat) : List AlarmTask :=
  (c.set i (at_ c j)).set j (at_ c i)

/-- The loop of `std::push_heap` with `std::greater`: while the hole is not the
root and its parent is greater than the value, the parent moves down. -/
def push_heap_loop : Nat → List AlarmTask → Nat → List AlarmTask
  | 0, c, _ => c
  | fuel + 1, c, hole =>
    if 0 < hole ∧ (at_ c (parent hole)).gt (at_ c hole) = true then
      push_heap_loop fuel (swapAt c hole (parent hole)) (parent hole)
    else c

/-- The child the hole moves to in `__adjust_heap` when both children exist:
the right child, unless it is greater than the left one. -/
def second_child (c : List AlarmTask) (hole : Nat) : Nat :=
  if (at_ c (2 * hole + 2)).gt (at_ c (2 * hole + 1)) = true then 2 * hole + 1
  else 2 * hole + 2

/-- The loop of `std::pop_heap` (`__adjust_heap`) on the first `len` elements:
the hole moves down to a leaf, each time to the child that is not greater than
its sibling, and the value is then pushed up from that leaf. -/
def adjust_heap : Nat → List AlarmTask → Nat → Nat → List AlarmTask
  | 0, c, hole, len => push_heap_loop len c hole
  | fuel + 1, c, hole, len =>
    if 2 * hole + 2 < len then
      adjust_heap fuel (swapAt c hole (second_child c hole)) (second_child c hole) len
    else if 2 * hole + 1 < len then
      push_heap_loop len (swapAt c hole (2 * hole + 1)) (2 * hole + 1)
    else push_heap_loop len c hole

/-- The call `tasks.empty()`. -/
def empty (c : List AlarmTask) : Bool := c.isEmpty

/-- The call `tasks.top()`: the front of the vector. -/
def top (c : List AlarmTask) : AlarmTask := at_ c 0

/-- The call `tasks.push(task)`. -/
def push (c : List AlarmTask) (task : AlarmTask) : List AlarmTask :=
  push_heap_loop (c.length + 1) (c ++ [task]) c.length

/-- The call `tasks.pop()`: the last element replaces the front, the vector
shrinks by one, and the heap order is restored from the root. -/
def pop (c : List AlarmTask) : List AlarmTask :=
  if c.length ≤ 1 then []
  else adjust_heap (c.length - 1) ((c.set 0 (at_ c (c.length - 1))).dropLast) 0 (c.length - 1)

/-- Heap order of the vector: no element is smaller than its parent. -/
def is_heap (c : List AlarmTask) : Prop :=
  ∀ i, i < c.length → 0 < i → key c (parent i) ≤ key c i

instance (c : List AlarmTask) : Decidable (is_heap c) := by
  unfold is_heap; infer_instance

/-! ## `AlarmSchedulerCpp::scheduler_loop` -/

/-- One evaluation of the inner `while` of `scheduler_loop`: when the queue is
not empty and its top is due at `now`, the top is copied, popped and handed to
a detached thread (the returned task), otherwise the loop ends (`none`). -/
def drain_step (now : Int) (tasks : List AlarmTask) : Option (AlarmTask × List AlarmTask) :=
  if (!empty tasks && decide ((top tasks).trigger_time ≤ now)) = true then
    some (top tasks, pop tasks)
  else none

/-- The inner `while` of `scheduler_loop`, run for at most `fuel` iterations:
the tasks dispatched, in dispatch order, and the queue left behind. -/
def drain : Nat → Int → List AlarmTask → List AlarmTask × List AlarmTask
  | 0, _, tasks => ([], tasks)
  | fuel + 1, now, tasks =>
    match drain_step now tasks with
    | none => ([], tasks)
    | some (task, rest) => (task :: (drain fuel now rest).1, (drain fuel now rest).2)

/-- One cycle of the outer `while` of `scheduler_loop` with the clock reading
`now`: each iteration of the drain pops one task, so the queue length bounds
the number of iterations. -/
def cycle (now : Int) (tasks : List AlarmTask) : List AlarmTask × List AlarmTask :=
  drain tasks.length now tasks

/-- The function `scheduler_loop` while `running` stays true: one cycle per
clock reading, no `create` in between.  The result lists the tasks dispatched
in each cycle and the final queue. -/
def scheduler_loop : List Int → List AlarmTask → List (List AlarmTask) × List AlarmTask
  | [], tasks => ([], tasks)
  | now :: later, tasks =>
    ((cycle now tasks).1 :: (scheduler_loop later (cycle now tasks).2).1,
      (scheduler_loop later (cycle now tasks).2).2)

/-- A queue built by pushing the given tasks, in the given order, on an empty queue. -/
def build (ts : List AlarmTask) : List AlarmTask := ts.foldl push []

/-- A task is due at `now`. -/
def due (now : Int) (t : AlarmTask) : Bool := decide (t.trigger_time ≤ now)

/-! ## Parsing of `time_spec`

The calls `std::get_time(&tm, "%Y-%m-%d %H:%M:%S")` and `std::mktime(&tm)` are
library calls.  `get_time` is modelled after the description of
`std::time_get::get` in the C++ standard: a conversion reads at most as many
decimal digits as its field is wide and fails when it reads none or the value
is out of range, a blank in the format skips any white space of the input, any
other character of the format must be matched by the input, the fields are
stored as they are read, and the first failure (or the end of the input
before the end of the format) sets the stream's `failbit` and stops the
parse.  `mktime` depends on the time zone of the process and is a parameter.
-/

/-- The fields of `std::tm` that `std::mktime` reads (it ignores `tm_wday` and
`tm_yday`). -/
structure Tm where
  tm_sec : Int
  tm_min : Int
  tm_hour : Int
  tm_mday : Int
  tm_mon : Int
  tm_year : Int
  tm_isdst : Int
deriving DecidableEq, Repr

/-- The declaration `std::tm tm = {}`: every field is zero. -/
def tm_zero : Tm := ⟨0, 0, 0, 0, 0, 0, 0⟩

/-- White space in the classic locale. -/
def is_space (c : Char) : Bool :=
  c = ' ' || c = '\t' || c = '\n' || c = '\r' || c.toNat = 11 || c.toNat = 12

/-- Value of a decimal digit. -/
def digit_val (c : Char) : Nat := c.toNat - 48

/-- The digit loop of a numeric conversion: at most `len` more digits are read
while the value stays within `max`; returns the value, the number of digits
consumed and the rest of the input. -/
def extract_digits (max : Nat) : Nat → List Char → Nat → Nat → Nat × Nat × List Char
  | 0, inp, value, i => (value, i, inp)
  | _ + 1, [], value, i => (value, i, [])
  | len + 1, c :: rest, value, i =>
    if c.isDigit = true then
      if value * 10 + digit_val c > max then (value * 10 + digit_val c, i, c :: rest)
      else extract_digits max len rest (value * 10 + digit_val c) (i + 1)
    else (value, i, c :: rest)

/-- A numeric conversion with the range `[min, max]` and the width `len`:
`none` is a failure. -/
def extract_num (min max len : Nat) (inp : List Char) : Option Nat × List Char :=
  if 0 < (extract_digits max len inp 0 0).2.1 ∧ min ≤ (extract_digits max len inp 0 0).1 ∧
      (extract_digits max len inp 0 0).1 ≤ max then
    (some (extract_digits max len inp 0 0).1, (extract_digits max len inp 0 0).2.2)
  else (none, (extract_digits max len inp 0 0).2.2)

/-- The items of a `get_time` format. -/
inductive FmtItem where
  | year
  | month
  | day
  | hour
  | minute
  | second
  | blank
  | lit (c : Char)
deriving DecidableEq, Repr

/-- The format string `"%Y-%m-%d %H:%M:%S"`. -/
def time_format : List FmtItem :=
  [.year, .lit '-', .month, .lit '-', .day, .blank, .hour, .lit ':', .minute, .lit ':', .second]

/-- One item of the format applied to a non-empty input: the updated `tm`, the
rest of the input, and whether the item failed. -/
def get_item (item : FmtItem) (tm : Tm) (inp : List Char) : Tm × List Char × Bool :=
  match item with
  | .year =>
    match extract_num 0 9999 4 inp with
    | (some v, rest) => ({ tm with tm_year := (v : Int) - 1900 }, rest, false)
    | (none, rest) => (tm, rest, true)
  | .month =>
    match extract_num 1 12 2 inp with
    | (some v, rest) => ({ tm with tm_mon := (v : Int) - 1 }, rest, false)
    | (none, rest) => (tm, rest, true)
  | .day =>
    match extract_num 1 31 2 inp with
    | (some v, rest) => ({ tm with tm_mday := (v : Int) }, rest, false)
    | (none, rest) => (tm, rest, true)
  | .hour =>
    match extract_num 0 23 2 inp with
    | (some v, rest) => ({ tm with tm_hour := (v : Int) }, rest, false)
    | (none, rest) => (tm, rest, true)
  | .minute =>
    match extract_num 0 59 2 inp with
    | (some v, rest) => ({ tm with tm_min := (v : Int) }, rest, false)
    | (none, rest) => (tm, rest, true)
  | .second =>
    match extract_num 0 60 2 inp with
    | (some v, rest) => ({ tm with tm_sec := (v : Int) }, rest, false)
    | (none, rest) => (tm, rest, true)
  | .blank => (tm, inp.dropWhile is_space, false)
  | .lit c =>
    match inp with
    | d :: rest => if d = c then (tm, rest, false) else (tm, d :: rest, true)
    | [] => (tm, [], true)

/-- The loop of `time_get::get` over the format: the resulting `tm` and the
stream's `failbit`. -/
def get_time_loop : List FmtItem → Tm → List Char → Tm × Bool
  | [], tm, _ => (tm, false)
  | _ :: _, tm, [] => (tm, true)
  | item :: items, tm, c :: inp =>
    if (get_item item tm (c :: inp)).2.2 = true then ((get_item item tm (c :: inp)).1, true)
    else get_time_loop items (get_item item tm (c :: inp)).1 (get_item item tm (c :: inp)).2.1

/-- The statement `ss >> std::get_time(&tm, "%Y-%m-%d %H:%M:%S")` on a stream
holding `time_spec`: the extraction first skips leading white space (the
stream's `skipws` flag is set by default).  Returns the resulting `tm` and the
stream's `failbit`. -/
def get_time (tm : Tm) (time_spec : String) : Tm × Bool :=
  get_time_loop time_format tm (time_spec.toList.dropWhile is_space)

/-! ## `AlarmSchedulerCpp::create_systemd_timer` -/

/-- A value kept in a signed 64-bit integer: arithmetic that leaves the range
wraps around. -/
def wrap_int64 (n : Int) : Int := (n + 9223372036854775808) % 18446744073709551616
  - 9223372036854775808

/-- The call `std::chrono::system_clock::from_time_t(t)`: the seconds are
converted to the clock's nanoseconds by a multiplication in 64-bit arithmetic,
which wraps when `t` is beyond about 292 years from the epoch. -/
def from_time_t (t : Int) : Int := wrap_int64 (t * 1000000000)

/-- The function `create_systemd_timer`, on the queue `tasks`: the returned
flag and the queue afterwards.  No call in the `try` block throws for any
argument: `operator>>` reports a parse failure in the stream's `failbit`
(the stream's exception mask is the default one), which the function does not
read, and `mktime` reports through its return value; so the handler that
returns `false` is not entered, and the `tm` left by the parse, complete or
not, is converted and pushed. -/
def create_systemd_timer (mktime : Tm → Int) (tasks : List AlarmTask)
    (alarm_id time_spec command : String) : Bool × List AlarmTask :=
  (true, push tasks ⟨from_time_t (mktime (get_time tm_zero time_spec).1), alarm_id, command⟩)

/-! ## The format `YYYY-MM-DD HH:MM:SS` -/

/-- The number written by two digits. -/
def two_digits (a b : Char) : Nat := 10 * digit_val a + digit_val b

/-- A string is in the format `YYYY-MM-DD HH:MM:SS`: nineteen characters, digits
and separators in their places, month in 1..12, day in 1..31, hour in 0..23,
minute and second in 0..59. -/
def well_formed (time_spec : String) : Bool :=
  match time_spec.toList with
  | [y1, y2, y3, y4, p1, m1, m2, p2, d1, d2, b, h1, h2, q1, n1, n2, q2, s1, s2] =>
    y1.isDigit && y2.isDigit && y3.isDigit && y4.isDigit && m1.isDigit && m2.isDigit &&
    d1.isDigit && d2.isDigit && h1.isDigit && h2.isDigit && n1.isDigit && n2.isDigit &&
    s1.isDigit && s2.isDigit &&
    decide (p1 = '-') && decide (p2 = '-') && decide (b = ' ') &&
    decide (q1 = ':') && decide (q2 = ':') &&
    decide (1 ≤ two_digits m1 m2) && decide (two_digits m1 m2 ≤ 12) &&
    decide (1 ≤ two_digits d1 d2) && decide (two_digits d1 d2 ≤ 31) &&
    decide (two_digits h1 h2 ≤ 23) && decide (two_digits n1 n2 ≤ 59) &&
    decide (two_digits s1 s2 ≤ 59)
  | _ => false

/-- Days from 1970-01-01 to the first day of month `m` (0..11) of year `y` in
the proleptic Gregorian calendar. -/
def days_to_month (y m : Int) : Int :=
  (if m < 2 then y - 1 else y) / 400 * 146097
    + (((if m < 2 then y - 1 else y) % 400) * 365 + ((if m < 2 then y - 1 else y) % 400) / 4
        - ((if m < 2 then y - 1 else y) % 400) / 100
        + (153 * (if m < 2 then m + 10 else m - 2) + 2) / 5)
    - 719468

/-- The function `std::mktime` in a process whose time zone is UTC: out-of-range
fields are normalised by carrying into the larger units.  It is used for
concrete evaluations; the general statements hold for every `mktime`. -/
def mktime_utc (tm : Tm) : Int :=
  (days_to_month (tm.tm_year + 1900 + tm.tm_mon / 12) (tm.tm_mon % 12) + (tm.tm_mday - 1)) * 86400
    + tm.tm_hour * 3600 + tm.tm_min * 60 + tm.tm_sec

/-! ## `AlarmSchedulerCpp::execute_task` and `cleanup_task`

A file system maps a path to the entry at that path, if there is one.  The
calls `fs::exists` and `fs::remove` can fail, and then throw
`fs::filesystem_error` and change nothing: `fs::exists` when the path cannot be
examined, `fs::remove` when the entry is a directory that is not empty or the
process may not remove it.  The effect of `std::system` on the file system and
its return value (the wait status of the command) are a parameter.
`std::system` is a C function and throws nothing, so the handler in
`execute_task`, the only place that writes to `std::cerr`, is not entered; the
return value of `std::system` is discarded.  The call of `cleanup_task` stands
after the `try` block, so an exception thrown there leaves `execute_task`.
-/

/-- An entry of the file system, as `fs::exists` and `fs::remove` meet it: a file
or a directory, whether a directory has entries of its own, whether the path can
be examined (`status` succeeds), and whether the process may remove the entry
(it may write to the directory that holds it). -/
structure Entry where
  content : String
  directory : Bool
  nonempty : Bool
  accessible : Bool
  deletable : Bool
deriving DecidableEq, Repr

/-- A file system: the entry, if any, at each path. -/
abbrev FileSystem := String → Option Entry

/-- How a call ended: the file system it left, and whether an exception left the
call. -/
structure Ending where
  fs : FileSystem
  thrown : Bool

/-- The call `fs::exists(path)`: `none` when it throws. -/
def fs_exists (fs : FileSystem) (path : String) : Option Bool :=
  match fs path with
  | none => some false
  | some e => if e.accessible = true then some true else none

/-- The call `fs::remove(path)`: the file system afterwards, `none` when it
throws. -/
def fs_remove (fs : FileSystem) (path : String) : Option FileSystem :=
  match fs path with
  | none => some fs
  | some e =>
    if e.accessible = true ∧ e.deletable = true ∧ ¬ (e.directory = true ∧ e.nonempty = true) then
      some (fun p => if p = path then none else fs p)
    else none

/-- The path `temp_dir / ("alarm-" + alarm_id + ".sh")`; the member `temp_dir` is
`fs::temp_directory_path() / "alarm_scripts"`, which is not empty and does not
end in a separator, so `operator/` puts one in between. -/
def script_path (temp_dir alarm_id : String) : String :=
  temp_dir ++ "/" ++ ("alarm-" ++ alarm_id ++ ".sh")

/-- The function `cleanup_task`. -/
def cleanup_task (temp_dir alarm_id : String) (fs : FileSystem) : Ending :=
  match fs_exists fs (script_path temp_dir alarm_id) with
  | none => ⟨fs, true⟩
  | some false => ⟨fs, false⟩
  | some true =>
    match fs_remove fs (script_path temp_dir alarm_id) with
    | none => ⟨fs, true⟩
    | some rest => ⟨rest, false⟩

/-- The function `execute_task`: how it ended (an exception of `cleanup_task`
leaves it too) and the lines written to `std::cerr`. -/
def execute_task (system : String → FileSystem → FileSystem × Int) (temp_dir : String)
    (task : AlarmTask) (fs : FileSystem) : Ending × List String :=
  (cleanup_task temp_dir task.alarm_id (system task.command fs).1, [])

/-- A shell for concrete evaluations: the command `false` exits with status 1
(wait status 256), every other command with status 0; no command touches
the file system. -/
def system_sample (command : String) (fs : FileSystem) : FileSystem × Int :=
  if command = "false" then (fs, 256) else (fs, 0)

/-- A JSON value (`nlohmann::json`); a number keeps its text. -/
inductive Json where
  | null
  | bool (b : Bool)
  | number (text : String)
  | string (s : String)
  | array (items : List Json)
  | object (members : List (String × Json))

/-- An HTTP response: the members `status` and `body` of `httplib::Response`. -/
structure Response where
  status : Int
  body : String

/-- The non-const `operator[]` of `json` with a string key: on an object it
yields the member, or null when the key is absent (a null member is inserted);
a null value becomes an empty object first; on any other value it throws
(`none`). -/
def Json.subscript (j : Json) (k : String) : Option Json :=
  match j with
  | .object members => some ((members.lookup k).getD .null)
  | .null => some .null
  | _ => none

/-- The call `get<bool>()`: the value of a boolean; it throws (`none`) on any
other kind of value. -/
def Json.get_bool (j : Json) : Option Bool :=
  match j with
  | .bool b => some b
  | _ => none

/-- The `try` block of `AlarmSchedulerClient::create_systemd_timer`: `none` is
an exception thrown inside it. -/
def AlarmSchedulerClient.try_create (dump : Json → Option String)
    (post : String → String → String → Option Response) (parse : String → Option Json)
    (alarm_id time_spec command : String) : Option Bool :=
  match dump (.object [("alarm_id", .string alarm_id), ("time_spec", .string time_spec),
      ("command", .string command)]) with
  | none => none
  | some request =>
    match post "/create" request "application/json" with
    | some res =>
      if res.status = 200 then
        match parse res.body with
        | none => none
        | some j =>
          match j.subscript "success" with
          | none => none
          | some v => v.get_bool
      else some false
    | none => some false

/-- The function `AlarmSchedulerClient::create_systemd_timer`: the value
returned by the `try` block, or false from the handler `catch (...)`. -/
def AlarmSchedulerClient.create_systemd_timer (dump : Json → Option String)
    (post : String → String → String → Option Response) (parse : String → Option Json)
    (alarm_id time_spec command : String) : Bool :=
  match AlarmSchedulerClient.try_create dump post parse alarm_id time_spec command with
  | some b => b
  | none => false

/-! ## The scheduler thread and `shutdown` as a state machine

The scheduler thread runs `scheduler_loop` one step at a time while other
threads call `shutdown` and `create_systemd_timer`.  A step of the scheduler
thread is the test of `running` at the head of the outer `while`, one
evaluation of the inner `while` (under `task_lock`), the `sleep_for`, or
nothing once the function has returned.  The fields `cycles` and `dispatched`
only record the history: the number of cycles begun, and every dispatched task
with the number of the cycle that dispatched it.
-/

/-- Where the scheduler thread stands in `scheduler_loop`. -/
inductive Pc where
  | loop_head
  | draining (now : Int)
  | sleeping
  | exited
deriving DecidableEq, Repr

/-- The state of the scheduler: the members `running` and `tasks`, the position
of the scheduler thread, and the recorded history. -/
structure Scheduler where
  running : Bool
  tasks : List AlarmTask
  pc : Pc
  cycles : Nat
  dispatched : List (Nat × AlarmTask)
deriving DecidableEq, Repr

/-- What can happen next: the scheduler thread takes a step (`now` is what the
clock shows, read only when a cycle begins), some thread calls `shutdown`, or
some thread calls `create_systemd_timer`. -/
inductive Event where
  | tick (now : Int)
  | shutdown
  | create (alarm_id time_spec command : String)
deriving DecidableEq, Repr

/-- One step of the scheduler thread in `scheduler_loop`. -/
def Scheduler.tick (s : Scheduler) (now : Int) : Scheduler :=
  match s.pc with
  | .loop_head =>
    if s.running = true then { s with pc := .draining now, cycles := s.cycles + 1 }
    else { s with pc := .exited }
  | .draining t =>
    match drain_step t s.tasks with
    | some (task, rest) =>
      { s with tasks := rest, dispatched := s.dispatched ++ [(s.cycles, task)] }
    | none => { s with pc := .sleeping }
  | .sleeping => { s with pc := .loop_head }
  | .exited => s

/-- The assignment `running = false` of `shutdown` (the `join` that follows
only waits for the scheduler thread). -/
def Scheduler.shutdown (s : Scheduler) : Scheduler := { s with running := false }

/-- A call of `create_systemd_timer` by another thread: while the scheduler
thread holds `task_lock` (it is draining) the caller waits and the state does
not change. -/
def Scheduler.create (mktime : Tm → Int) (s : Scheduler)
    (alarm_id time_spec command : String) : Scheduler :=
  match s.pc with
  | .draining _ => s
  | _ => { s with tasks := (create_systemd_timer mktime s.tasks alarm_id time_spec command).2 }

/-- The kinds of property the function asks for (`ICAL_SUMMARY_PROPERTY`,
`ICAL_DTSTART_PROPERTY`, `ICAL_DTEND_PROPERTY`, `ICAL_UID_PROPERTY`), and any
other kind. -/
inductive PropertyKind where
  | summary
  | dtstart
  | dtend
  | uid
  | other (name : String)
deriving DecidableEq, Repr

/-- A property of a component: its kind and its value as a string. -/
structure IcalProperty where
  kind : PropertyKind
  value : String
deriving DecidableEq, Repr

/-- The struct `IcalManager::Event`; a default-constructed event has five empty
strings. -/
structure IcalManager.Event where
  event_id : String
  date : String
  start_time : String
  end_time : String
  title : String
deriving DecidableEq, Repr

/-- The call `icalcomponent_get_first_property(vevent, kind)`: `none` is the
null pointer. -/
def icalcomponent_get_first_property (vevent : List IcalProperty) (kind : PropertyKind) :
    Option IcalProperty :=
  vevent.find? (fun p => decide (p.kind = kind))

/-- The call `s.substr(0, n)` of `std::string`: the first `n` characters, or
all of `s` when it is shorter. -/
def substr_front (s : String) (n : Nat) : String := ⟨s.toList.take n⟩

/-- The body of the `for` loop of `fetch_and_parse_events` for one VEVENT, on
the member `events`: the event is pushed back only when the first SUMMARY
exists, its value is not empty and starts with the keyword, and DTSTART, DTEND
and UID are all present.  Only `title` is assigned. -/
def IcalManager.visit_vevent (alarm_keyword : String) (events : List IcalManager.Event)
    (vevent : List IcalProperty) : List IcalManager.Event :=
  match icalcomponent_get_first_property vevent .summary with
  | none => events
  | some summary =>
    if (!summary.value.isEmpty &&
        decide (substr_front summary.value alarm_keyword.length = alarm_keyword)) = true then
      if ((icalcomponent_get_first_property vevent .dtstart).isSome &&
          (icalcomponent_get_first_property vevent .dtend).isSome &&
          (icalcomponent_get_first_property vevent .uid).isSome) = true then
        events ++ [⟨"", "", "", "", summary.value⟩]
      else events
    else events

/-- The comparator of the final `std::sort`:
`a.date + a.start_time < b.date + b.start_time`. -/
def IcalManager.event_before (a b : IcalManager.Event) : Prop :=
  a.date ++ a.start_time < b.date ++ b.start_time

instance (a b : IcalManager.Event) : Decidable (IcalManager.event_before a b) := by
  unfold IcalManager.event_before; infer_instance

/-- The lines of `fetch_and_parse_events` after the calendar is parsed:
`events.clear()`, the loop over the VEVENT components, and the `std::sort`.
`std::sort` returns a permutation of the vector ordered by the comparator and
leaves the order of equivalent elements unspecified; an insertion sort, which
puts an element in front of the first one that the comparator does not put
before it, stands for it. -/
def IcalManager.fetch_and_parse_events (alarm_keyword : String)
    (cal : List (List IcalProperty)) : List IcalManager.Event :=
  (cal.foldl (IcalManager.visit_vevent alarm_keyword) []).insertionSort
    (fun a b => ¬ IcalManager.event_before b a)

/-! ## The keyword filter, in the words of the spec -/

/-- The value of the SUMMARY of a VEVENT, if it has one (the first, should there
be several). -/
def summary_of (vevent : List IcalProperty) : Option String :=
  (vevent.find? (fun p => decide (p.kind = .summary))).map (fun p => p.value)

/-- A VEVENT has a property of the given kind. -/
def has_property (vevent : List IcalProperty) (kind : PropertyKind) : Bool :=
  vevent.any (fun p => decide (p.kind = kind))

/-- A VEVENT qualifies: it has a non-empty SUMMARY that begins with the keyword,
and DTSTART, DTEND and UID properties. -/
def qualifies (alarm_keyword : String) (vevent : List IcalProperty) : Bool :=
  match summary_of vevent with
  | none => false
  | some title =>
    decide (title ≠ "") && alarm_keyword.toList.isPrefixOf title.toList &&
      has_property vevent .dtstart && has_property vevent .dtend && has_property vevent .uid

/-- The event a qualifying VEVENT contributes: its SUMMARY as the title. -/
def event_of (vevent : List IcalProperty) : IcalManager.Event :=
  ⟨"", "", "", "", (summary_of vevent).getD ""⟩

/-! ## The UTC instant written in a time specification

The instant that a string of the format `YYYY-MM-DD HH:MM:SS` names when it is
read as UTC, counted from the rules of the Gregorian calendar: the days of the
years before, the days of the months before, the days of the month, and the
seconds of the day, from 1970-01-01 00:00:00.
-/

theorem at_set (c : List AlarmTask) (i k : Nat) (a : AlarmTask) (hi : i < c.length) :
    at_ (c.set i a) k = if k = i then a else at_ c k := by
  unfold at_
  simp only [List.getD_eq_getElem?_getD, List.getElem?_set]
  by_cases h : i = k
  · subst h; simp [hi]
  · have h2 : ¬ k = i := fun e => h e.symm
    simp [h, h2]

theorem length_swapAt (c : List AlarmTask) (i j : Nat) : (swapAt c i j).length = c.length := by
  simp [swapAt]

theorem at_swapAt (c : List AlarmTask) (i j k : Nat) (hi : i < c.length) (hj : j < c.length) :
    at_ (swapAt c i j) k = if k = j then at_ c i else if k = i then at_ c j else at_ c k := by
  unfold swapAt
  rw [at_set _ _ _ _ (by simpa using hj), at_set _ _ _ _ hi]

theorem key_swapAt (c : List AlarmTask) (i j k : Nat) (hi : i < c.length) (hj : j < c.length) :
    key (swapAt c i j) k = if k = j then key c i else if k = i then key c j else key c k := by
  unfold key
  rw [at_swapAt c i j k hi hj]
  split_ifs <;> rfl

theorem set_perm_cons_eraseIdx (c : List AlarmTask) (i : Nat) (a : AlarmTask) (hi : i < c.length) :
    (c.set i a).Perm (a :: c.eraseIdx i) := by
  induction c generalizing i with
  | nil => simp at hi
  | cons x xs ih =>
    cases i with
    | zero => simp
    | succ n =>
      simp only [List.set_cons_succ, List.eraseIdx_cons_succ]
      have h1 := ih n (by simpa using hi)
      exact (List.Perm.cons x h1).trans (List.Perm.swap a x _)

theorem perm_at_cons_eraseIdx (c : List AlarmTask) (i : Nat) (hi : i < c.length) :
    c.Perm (at_ c i :: c.eraseIdx i) := by
  have h := set_perm_cons_eraseIdx c i (at_ c i) hi
  have e : c.set i (at_ c i) = c := by
    apply List.ext_getElem (by simp)
    intro n h1 h2
    simp only [List.getElem_set]
    split_ifs with hh
    · subst hh; simp [at_, List.getD_eq_getElem?_getD, List.getElem?_eq_getElem h2]
    · rfl
  rw [e] at h
  exact h


theorem at_cons_set_perm (c : List AlarmTask) (i : Nat) (a : AlarmTask) (hi : i < c.length) :
    (at_ c i :: c.set i a).Perm (a :: c) := by
  have h1 := set_perm_cons_eraseIdx c i a hi
  have h2 := perm_at_cons_eraseIdx c i hi
  exact ((List.Perm.cons _ h1).trans (List.Perm.swap _ _ _)).trans (List.Perm.cons _ h2.symm)

theorem swapAt_perm (c : List AlarmTask) (i j : Nat) (hi : i < c.length) (hj : j < c.length) :
    (swapAt c i j).Perm c := by
  have h1 := at_cons_set_perm (c.set i (at_ c j)) j (at_ c i) (by simpa using hj)
  have h2 := at_cons_set_perm c i (at_ c j) hi
  have e : at_ (c.set i (at_ c j)) j = at_ c j := by
    rw [at_set _ _ _ _ hi]; split_ifs <;> rfl
  rw [e] at h1
  exact (h1.trans h2).cons_inv

theorem parent_lt (i : Nat) (h : 0 < i) : parent i < i := by
  unfold parent; omega

theorem push_heap_loop_length (fuel : Nat) (c : List AlarmTask) (hole : Nat) :
    (push_heap_loop fuel c hole).length = c.length := by
  induction fuel generalizing c hole with
  | zero => rfl
  | succ n ih =>
    unfold push_heap_loop
    split_ifs
    · rw [ih, length_swapAt]
    · rfl

theorem push_heap_loop_perm (fuel : Nat) (c : List AlarmTask) (hole : Nat)
    (hlen : hole < c.length) : (push_heap_loop fuel c hole).Perm c := by
  induction fuel generalizing c hole with
  | zero => exact List.Perm.refl _
  | succ n ih =>
    unfold push_heap_loop
    split_ifs with hc
    · have hp : parent hole < c.length := lt_trans (parent_lt hole hc.1) hlen
      exact (ih _ _ (by rw [length_swapAt]; exact hp)).trans (swapAt_perm c _ _ hlen hp)
    · exact List.Perm.refl _

theorem gt_iff (a b : AlarmTask) : a.gt b = true ↔ b.trigger_time < a.trigger_time := by
  simp [AlarmTask.gt]

/-- Sifting up restores the heap order when the only possible violation is
between the hole and its parent. -/
theorem push_heap_loop_heap (fuel : Nat) (c : List AlarmTask) (h : Nat)
    (hfuel : h ≤ fuel) (hlen : h < c.length)
    (A : ∀ j, j < c.length → 0 < j → j ≠ h → key c (parent j) ≤ key c j)
    (B : ∀ j, j < c.length → 0 < j → parent j = h → 0 < h → key c (parent h) ≤ key c j) :
    is_heap (push_heap_loop fuel c h) := by
  induction fuel generalizing c h with
  | zero =>
    intro j hj hj0
    exact A j hj hj0 (by omega)
  | succ n ih =>
    unfold push_heap_loop
    split_ifs with hc
    · obtain ⟨h0, hgt⟩ := hc
      rw [gt_iff] at hgt
      have hgt2 : key c h < key c (parent h) := hgt
      have hpl : parent h < h := parent_lt h h0
      have hp : parent h < c.length := lt_trans hpl hlen
      have hK : ∀ k, key (swapAt c h (parent h)) k
          = if k = parent h then key c h else if k = h then key c (parent h) else key c k :=
        fun k => key_swapAt c h (parent h) k hlen hp
      apply ih
      · omega
      · rw [length_swapAt]; exact hp
      · intro j hj hj0 hjp
        rw [length_swapAt] at hj
        rw [hK, hK]
        by_cases hjh : j = h
        · subst hjh
          simp only [if_true, if_neg (ne_of_gt hpl), if_true]
          omega
        · rw [if_neg hjp, if_neg hjh]
          by_cases h1 : parent j = parent h
          · rw [if_pos h1]
            have := A j hj hj0 hjh
            rw [h1] at this
            omega
          · rw [if_neg h1]
            by_cases h2 : parent j = h
            · rw [if_pos h2]
              exact B j hj hj0 h2 h0
            · rw [if_neg h2]
              exact A j hj hj0 hjh
      · intro j hj hj0 hjp hp0
        rw [length_swapAt] at hj
        rw [hK, hK]
        have hpp : parent (parent h) < parent h := parent_lt _ hp0
        rw [if_neg (ne_of_lt hpp), if_neg (by omega)]
        have hAp := A (parent h) hp hp0 (by omega)
        by_cases hjh : j = h
        · subst hjh
          rw [if_neg (by omega), if_pos rfl]
          exact hAp
        · have hjp2 : j ≠ parent h := by
            have := parent_lt j hj0
            omega
          rw [if_neg hjp2, if_neg hjh]
          have := A j hj hj0 hjh
          rw [hjp] at this
          omega
    · intro j hj hj0
      by_cases hjh : j = h
      · subst hjh
        have : ¬ (at_ c (parent j)).gt (at_ c j) = true := fun hh => hc ⟨hj0, hh⟩
        rw [gt_iff] at this
        unfold key
        omega
      · exact A j hj hj0 hjh


theorem second_child_cases (c : List AlarmTask) (h : Nat) :
    (second_child c h = 2 * h + 1 ∧ key c (2 * h + 1) ≤ key c (2 * h + 2)) ∨
    (second_child c h = 2 * h + 2 ∧ key c (2 * h + 2) ≤ key c (2 * h + 1)) := by
  unfold second_child
  split_ifs with hg
  · rw [gt_iff] at hg
    left; exact ⟨rfl, le_of_lt hg⟩
  · rw [gt_iff] at hg
    right; exact ⟨rfl, by unfold key; omega⟩

theorem adjust_heap_length (fuel : Nat) (c : List AlarmTask) (hole len : Nat) :
    (adjust_heap fuel c hole len).length = c.length := by
  induction fuel generalizing c hole with
  | zero => simp [adjust_heap, push_heap_loop_length]
  | succ n ih =>
    unfold adjust_heap
    split_ifs
    · rw [ih, length_swapAt]
    · rw [push_heap_loop_length, length_swapAt]
    · rw [push_heap_loop_length]

theorem adjust_heap_perm (fuel : Nat) (c : List AlarmTask) (hole : Nat)
    (hlen : hole < c.length) : (adjust_heap fuel c hole c.length).Perm c := by
  induction fuel generalizing c hole with
  | zero => exact push_heap_loop_perm _ _ _ hlen
  | succ n ih =>
    unfold adjust_heap
    split_ifs with h1 h2
    · have hm : second_child c hole < c.length := by
        rcases second_child_cases c hole with ⟨e, _⟩ | ⟨e, _⟩ <;> omega
      have := ih (swapAt c hole (second_child c hole)) (second_child c hole)
        (by rw [length_swapAt]; exact hm)
      rw [length_swapAt] at this
      exact this.trans (swapAt_perm c _ _ hlen hm)
    · exact (push_heap_loop_perm _ _ _ (by rw [length_swapAt]; exact h2)).trans
        (swapAt_perm c _ _ hlen h2)
    · exact push_heap_loop_perm _ _ _ hlen

/-- One step of the hole towards the leaves keeps the invariant of the descent:
the only possible violations are between the hole and its children. -/
theorem hole_down_step (c : List AlarmTask) (h m : Nat) (hm : m < c.length)
    (hpm : parent m = h) (hm0 : 0 < m)
    (hmin : ∀ j, j < c.length → 0 < j → parent j = h → key c m ≤ key c j)
    (P : ∀ j, j < c.length → 0 < j → j ≠ h → parent j ≠ h → key c (parent j) ≤ key c j)
    (Q : ∀ j, j < c.length → 0 < j → parent j = h → 0 < h → key c (parent h) ≤ key c j) :
    (∀ j, j < (swapAt c h m).length → 0 < j → j ≠ m → parent j ≠ m →
        key (swapAt c h m) (parent j) ≤ key (swapAt c h m) j) ∧
    (∀ j, j < (swapAt c h m).length → 0 < j → parent j = m → 0 < m →
        key (swapAt c h m) (parent m) ≤ key (swapAt c h m) j) := by
  have hhm : h < m := by rw [← hpm]; exact parent_lt m hm0
  have hh : h < c.length := lt_trans hhm hm
  have hK : ∀ k, key (swapAt c h m) k
      = if k = m then key c h else if k = h then key c m else key c k :=
    fun k => key_swapAt c h m k hh hm
  constructor
  · intro j hj hj0 hjm hpjm
    rw [length_swapAt] at hj
    rw [hK, hK, if_neg hpjm, if_neg hjm]
    by_cases hjh : j = h
    · subst hjh
      have hpj : parent j < j := parent_lt j hj0
      rw [if_neg (ne_of_lt hpj), if_pos rfl]
      exact Q m hm hm0 hpm hj0
    · rw [if_neg hjh]
      by_cases h2 : parent j = h
      · rw [if_pos h2]
        exact hmin j hj hj0 h2
      · rw [if_neg h2]
        exact P j hj hj0 hjh h2
  · intro j hj hj0 hpj _
    rw [length_swapAt] at hj
    have hmj : m < j := by rw [← hpj]; exact parent_lt j hj0
    rw [hK, hK, hpm, if_neg (by omega), if_pos rfl, if_neg (by omega), if_neg (by omega)]
    have := P j hj hj0 (by omega) (by omega)
    rw [hpj] at this
    exact this

/-- At a leaf the descent invariant is the precondition of sifting up. -/
theorem hole_leaf_heap (c : List AlarmTask) (h : Nat) (hh : h < c.length)
    (hleaf : c.length ≤ 2 * h + 1)
    (P : ∀ j, j < c.length → 0 < j → j ≠ h → parent j ≠ h → key c (parent j) ≤ key c j) :
    is_heap (push_heap_loop c.length c h) := by
  have noChild : ∀ j, j < c.length → 0 < j → parent j ≠ h := by
    intro j hj hj0 e
    unfold parent at e
    omega
  apply push_heap_loop_heap _ _ _ (le_of_lt hh) hh
  · intro j hj hj0 hjh
    exact P j hj hj0 hjh (noChild j hj hj0)
  · intro j hj hj0 e
    exact absurd e (noChild j hj hj0)

theorem adjust_heap_heap (fuel : Nat) (c : List AlarmTask) (h : Nat) (hh : h < c.length)
    (hfuel : c.length ≤ h + fuel + 1)
    (P : ∀ j, j < c.length → 0 < j → j ≠ h → parent j ≠ h → key c (parent j) ≤ key c j)
    (Q : ∀ j, j < c.length → 0 < j → parent j = h → 0 < h → key c (parent h) ≤ key c j) :
    is_heap (adjust_heap fuel c h c.length) := by
  induction fuel generalizing c h with
  | zero =>
    exact hole_leaf_heap c h hh (by omega) P
  | succ n ih =>
    unfold adjust_heap
    have children : ∀ j, 0 < j → parent j = h → j = 2 * h + 1 ∨ j = 2 * h + 2 := by
      intro j hj0 e
      unfold parent at e
      omega
    have hpl : parent (2 * h + 1) = h := by unfold parent; omega
    have hpr : parent (2 * h + 2) = h := by unfold parent; omega
    have go : ∀ m, m < c.length → parent m = h → 0 < m → 2 * h + 1 ≤ m →
        (∀ j, j < c.length → 0 < j → parent j = h → key c m ≤ key c j) →
        is_heap (adjust_heap n (swapAt c h m) m c.length) := by
      intro m hm hpm hm0 hge hmin
      obtain ⟨P2, Q2⟩ := hole_down_step c h m hm hpm hm0 hmin P Q
      have := ih (swapAt c h m) m (by rw [length_swapAt]; exact hm)
        (by rw [length_swapAt]; omega) P2 Q2
      rw [length_swapAt] at this
      exact this
    split_ifs with h1 h2
    · rcases second_child_cases c h with ⟨e, hle⟩ | ⟨e, hle⟩
      · rw [e]
        apply go _ (by omega) hpl (by omega) (by omega)
        intro j hj hj0 e3
        rcases children j hj0 e3 with e2 | e2
        · rw [e2]
        · rw [e2]; exact hle
      · rw [e]
        apply go _ h1 hpr (by omega) (by omega)
        intro j hj hj0 e3
        rcases children j hj0 e3 with e2 | e2
        · rw [e2]; exact hle
        · rw [e2]
    · have hm : 2 * h + 1 < c.length := h2
      have hmin : ∀ j, j < c.length → 0 < j → parent j = h → key c (2 * h + 1) ≤ key c j := by
        intro j hj hj0 e
        rcases children j hj0 e with e2 | e2
        · rw [e2]
        · omega
      obtain ⟨P2, _⟩ := hole_down_step c h (2 * h + 1) hm hpl (by omega) hmin P Q
      have := hole_leaf_heap (swapAt c h (2 * h + 1)) (2 * h + 1)
        (by rw [length_swapAt]; exact hm) (by rw [length_swapAt]; omega) P2
      rw [length_swapAt] at this
      exact this
    · exact hole_leaf_heap c h hh (by omega) P

/-! ## The contract of the priority queue -/

theorem at_append_left (c l : List AlarmTask) (j : Nat) (hj : j < c.length) :
    at_ (c ++ l) j = at_ c j := by
  unfold at_
  simp [List.getD_eq_getElem?_getD, List.getElem?_append_left hj]

theorem at_dropLast (c : List AlarmTask) (j : Nat) (hj : j + 1 < c.length) :
    at_ c.dropLast j = at_ c j := by
  unfold at_
  rw [List.getD_eq_getElem?_getD, List.getD_eq_getElem?_getD, List.dropLast_eq_take,
    List.getElem?_take_of_lt (by omega)]

theorem push_perm (c : List AlarmTask) (task : AlarmTask) : (push c task).Perm (task :: c) := by
  unfold push
  exact (push_heap_loop_perm _ _ _ (by simp)).trans (List.perm_append_singleton _ _)

theorem push_length (c : List AlarmTask) (task : AlarmTask) :
    (push c task).length = c.length + 1 := by
  simp [push, push_heap_loop_length]

theorem push_heap (c : List AlarmTask) (task : AlarmTask) (hc : is_heap c) :
    is_heap (push c task) := by
  unfold push
  apply push_heap_loop_heap
  · omega
  · simp
  · intro j hj hj0 hjn
    have hj2 : j < c.length := by simp at hj; omega
    have hp : parent j < c.length := lt_trans (parent_lt j hj0) hj2
    unfold key
    rw [at_append_left _ _ _ hj2, at_append_left _ _ _ hp]
    exact hc j hj2 hj0
  · intro j hj hj0 e
    simp at hj
    unfold parent at e
    omega

theorem pop_perm (c : List AlarmTask) (hc : c ≠ []) : c.Perm (top c :: pop c) := by
  match c, hc with
  | [x], _ => simp [top, pop, at_]
  | x :: y :: ys, _ =>
    have hl : ¬ (x :: y :: ys).length ≤ 1 := by simp
    unfold pop
    rw [if_neg hl]
    have e : ((x :: y :: ys).set 0 (at_ (x :: y :: ys) ((x :: y :: ys).length - 1))).dropLast
        = (y :: ys).getLast (by simp) :: (y :: ys).dropLast := by
      simp [at_, List.getD_eq_getElem?_getD, List.getLast_eq_getElem, List.getElem?_eq_getElem]
    have hlen : ((x :: y :: ys).set 0
        (at_ (x :: y :: ys) ((x :: y :: ys).length - 1))).dropLast.length
        = (x :: y :: ys).length - 1 := by simp
    have h1 := adjust_heap_perm ((x :: y :: ys).length - 1) _ 0
      (by rw [hlen]; simp : 0 < ((x :: y :: ys).set 0
        (at_ (x :: y :: ys) ((x :: y :: ys).length - 1))).dropLast.length)
    rw [hlen] at h1
    have h2 : ((y :: ys).getLast (by simp) :: (y :: ys).dropLast).Perm (y :: ys) := by
      have := List.dropLast_append_getLast (l := y :: ys) (by simp)
      exact (List.perm_append_singleton _ _).symm.trans (by rw [this])
    have h3 : top (x :: y :: ys) = x := by simp [top, at_]
    rw [h3]
    refine List.Perm.cons x (h1.trans ?_).symm
    rw [e]
    exact h2

theorem pop_heap (c : List AlarmTask) (hc : is_heap c) : is_heap (pop c) := by
  unfold pop
  split_ifs with hl
  · intro i hi; simp at hi
  · have hlen : ((c.set 0 (at_ c (c.length - 1))).dropLast).length = c.length - 1 := by simp
    have hK : ∀ j, j < c.length - 1 → key ((c.set 0 (at_ c (c.length - 1))).dropLast) j
        = if j = 0 then key c (c.length - 1) else key c j := by
      intro j hj
      unfold key
      rw [at_dropLast _ _ (by simp; omega), at_set _ _ _ _ (by omega)]
      split_ifs <;> rfl
    have := adjust_heap_heap (c.length - 1) ((c.set 0 (at_ c (c.length - 1))).dropLast) 0
      (by rw [hlen]; omega) (by rw [hlen]; omega)
      (by
        intro j hj hj0 _ hp
        rw [hlen] at hj
        have hpj := parent_lt j hj0
        rw [hK j hj, hK (parent j) (by omega), if_neg hp, if_neg (by omega)]
        exact hc j (by omega) hj0)
      (by intro j _ _ _ h0; omega)
    rw [hlen] at this
    exact this

theorem heap_top_le_key (c : List AlarmTask) (hc : is_heap c) (i : Nat) (hi : i < c.length) :
    key c 0 ≤ key c i := by
  induction i using Nat.strong_induction_on with
  | _ i ih =>
    by_cases h0 : i = 0
    · subst h0; exact le_refl _
    · have hp := parent_lt i (by omega)
      exact le_trans (ih (parent i) hp (by omega)) (hc i hi (by omega))

theorem heap_top_le (c : List AlarmTask) (hc : is_heap c) (t : AlarmTask) (ht : t ∈ c) :
    (top c).trigger_time ≤ t.trigger_time := by
  obtain ⟨i, hi, e⟩ := List.getElem_of_mem ht
  have := heap_top_le_key c hc i hi
  unfold key at_ at this
  rw [List.getD_eq_getElem?_getD, List.getD_eq_getElem?_getD, List.getElem?_eq_getElem hi] at this
  simp only [Option.getD_some] at this
  rw [e] at this
  simpa [top, at_, List.getD_eq_getElem?_getD] using this

theorem build_heap (ts : List AlarmTask) : is_heap (build ts) := by
  have : ∀ (c : List AlarmTask), is_heap c → is_heap (ts.foldl push c) := by
    induction ts with
    | nil => intro c hc; exact hc
    | cons t ts ih => intro c hc; exact ih _ (push_heap c t hc)
  exact this [] (by intro i hi; simp at hi)

theorem build_perm (ts : List AlarmTask) : (build ts).Perm ts := by
  have : ∀ (c : List AlarmTask), (ts.foldl push c).Perm (c ++ ts) := by
    induction ts with
    | nil => intro c; simp
    | cons t ts ih =>
      intro c
      refine (ih (push c t)).trans ?_
      have := (push_perm c t).trans (List.perm_append_singleton t c).symm
      simpa using this.append_right ts
  simpa [build] using this []

/-- Every heap-ordered vector is the queue built by pushing its elements in
their order, so the queues `build ts` are all the heap-ordered queues. -/
theorem build_of_heap (c : List AlarmTask) (hc : is_heap c) : build c = c := by
  have key_step : ∀ n, n ≤ c.length → (c.take n).foldl push [] = c.take n := by
    intro n
    induction n with
    | zero => intro _; rfl
    | succ n ih =>
      intro hn
      have hlt : n < c.length := by omega
      have et : c.take (n + 1) = c.take n ++ [at_ c n] := by
        rw [List.take_succ, List.getElem?_eq_getElem hlt]
        simp [at_, List.getD_eq_getElem?_getD, List.getElem?_eq_getElem hlt]
      rw [et, List.foldl_append, ih (by omega)]
      simp only [List.foldl_cons, List.foldl_nil]
      unfold push
      have hlen : (c.take n).length = n := by simp; omega
      rw [hlen]
      unfold push_heap_loop
      rw [if_neg]
      rintro ⟨h0, hg⟩
      rw [gt_iff] at hg
      have hp := parent_lt n h0
      have e1 : at_ (c.take n ++ [at_ c n]) n = at_ c n := by
        generalize at_ c n = x
        unfold at_
        rw [List.getD_eq_getElem?_getD, List.getElem?_append_right (by omega)]
        simp [hlen]
      have e2 : at_ (c.take n ++ [at_ c n]) (parent n) = at_ c (parent n) := by
        rw [at_append_left _ _ _ (by omega)]
        unfold at_
        rw [List.getD_eq_getElem?_getD, List.getD_eq_getElem?_getD,
          List.getElem?_take_of_lt hp]
      rw [e1, e2] at hg
      have := hc n hlt h0
      unfold key at this
      omega
  have := key_step c.length (le_refl _)
  rw [List.take_length] at this
  exact this

/-! ## The drain of one scheduler cycle -/

theorem drain_step_none_iff (now : Int) (c : List AlarmTask) :
    drain_step now c = none ↔ (c = [] ∨ now < (top c).trigger_time) := by
  unfold drain_step empty
  cases c with
  | nil => simp
  | cons x xs => simp

theorem drain_step_some (now : Int) (c : List AlarmTask) (task : AlarmTask)
    (rest : List AlarmTask) (h : drain_step now c = some (task, rest)) :
    c ≠ [] ∧ (top c).trigger_time ≤ now ∧ task = top c ∧ rest = pop c := by
  unfold drain_step empty at h
  split_ifs at h with hc
  simp only [Option.some.injEq, Prod.mk.injEq] at h
  cases c with
  | nil => simp at hc
  | cons x xs =>
    simp at hc
    exact ⟨by simp, hc, h.1.symm, h.2.symm⟩

/-- What the drain does on a heap-ordered queue when the fuel covers the queue length. -/
theorem drain_spec (fuel : Nat) (now : Int) (c : List AlarmTask) (hc : is_heap c)
    (hfuel : c.length ≤ fuel) :
    ((drain fuel now c).1 ++ (drain fuel now c).2).Perm c ∧
    (∀ t ∈ (drain fuel now c).1, t.trigger_time ≤ now) ∧
    (∀ t ∈ (drain fuel now c).2, now < t.trigger_time) ∧
    (drain fuel now c).1.Pairwise (fun a b => a.trigger_time ≤ b.trigger_time) ∧
    is_heap (drain fuel now c).2 ∧
    drain_step now (drain fuel now c).2 = none := by
  induction fuel generalizing c with
  | zero =>
    have : c = [] := List.length_eq_zero.mp (by omega)
    subst this
    simp [drain, drain_step_none_iff, hc]
  | succ n ih =>
    unfold drain
    cases hstep : drain_step now c with
    | none =>
      simp only [List.nil_append, List.not_mem_nil, false_implies, implies_true,
        List.Pairwise.nil, true_and]
      refine ⟨List.Perm.refl _, ?_, hc, hstep⟩
      intro t ht
      rcases (drain_step_none_iff now c).mp hstep with e | e
      · subst e; simp at ht
      · exact lt_of_lt_of_le e (heap_top_le c hc t ht)
    | some p =>
      obtain ⟨task, rest⟩ := p
      obtain ⟨hne, hdue, htask, hrest⟩ := drain_step_some now c task rest hstep
      subst htask hrest
      have hperm := pop_perm c hne
      have hlen : (pop c).length ≤ n := by
        have := hperm.length_eq
        simp at this
        omega
      obtain ⟨h1, h2, h3, h4, h5, h6⟩ := ih (pop c) (pop_heap c hc) hlen
      refine ⟨?_, ?_, h3, ?_, h5, h6⟩
      · exact (List.Perm.cons _ h1).trans hperm.symm
      · intro t ht
        rcases List.mem_cons.mp ht with e | e
        · rw [e]; exact hdue
        · exact h2 t e
      · refine List.Pairwise.cons ?_ h4
        intro t ht
        apply heap_top_le c hc t
        have : t ∈ (drain n now (pop c)).1 ++ (drain n now (pop c)).2 :=
          List.mem_append_left _ ht
        exact hperm.symm.subset (List.mem_cons_of_mem _ (h1.subset this))

theorem perm_split_filter (a b c : List AlarmTask) (p : AlarmTask → Bool)
    (h : (a ++ b).Perm c) (ha : ∀ t ∈ a, p t = true) (hb : ∀ t ∈ b, p t = false) :
    a.Perm (c.filter p) ∧ b.Perm (c.filter (fun t => !p t)) := by
  have h1 := (h.filter p).symm
  have h2 := (h.filter (fun t => !p t)).symm
  rw [List.filter_append] at h1 h2
  have e1 : a.filter p = a := List.filter_eq_self.mpr ha
  have e2 : b.filter p = [] := List.filter_eq_nil_iff.mpr (by
    intro t ht; rw [hb t ht]; simp)
  have e3 : a.filter (fun t => !p t) = [] := List.filter_eq_nil_iff.mpr (by
    intro t ht; rw [ha t ht]; simp)
  have e4 : b.filter (fun t => !p t) = b := List.filter_eq_self.mpr (by
    intro t ht; rw [hb t ht]; rfl)
  rw [e1, e2, List.append_nil] at h1
  rw [e3, e4, List.nil_append] at h2
  exact ⟨h1.symm, h2.symm⟩

/-- One cycle on a heap-ordered queue: the due tasks leave in ascending order,
the others stay, and the loop ends by its own condition. -/
theorem cycle_spec (now : Int) (c : List AlarmTask) (hc : is_heap c) :
    (cycle now c).1.Perm (c.filter (due now)) ∧
    (cycle now c).2.Perm (c.filter (fun t => !due now t)) ∧
    (cycle now c).1.Pairwise (fun a b => a.trigger_time ≤ b.trigger_time) ∧
    is_heap (cycle now c).2 ∧
    drain_step now (cycle now c).2 = none := by
  obtain ⟨h1, h2, h3, h4, h5, h6⟩ := drain_spec c.length now c hc (le_refl _)
  have := perm_split_filter _ _ c (due now) h1
    (by intro t ht; simpa [due] using h2 t ht)
    (by intro t ht; simpa [due] using h3 t ht)
  exact ⟨this.1, this.2, h4, h5, h6⟩

/-! ## Claims on the scheduler loop -/

/-- C1: for every queue built by pushing any tasks in any order and every
instant `now`, one cycle of `scheduler_loop` dispatches exactly the queued
tasks with `trigger_time <= now` (as a multiset), in non-decreasing order of
`trigger_time`, and the drain ends because its loop condition is false. -/
theorem cycle_dispatches_due_in_order (ts : List AlarmTask) (now : Int) :
    (cycle now (build ts)).1.Perm (ts.filter (fun t => decide (t.trigger_time ≤ now))) ∧
    (cycle now (build ts)).1.Pairwise (fun a b => a.trigger_time ≤ b.trigger_time) ∧
    drain_step now (cycle now (build ts)).2 = none := by
  obtain ⟨h1, _, h3, _, h5⟩ := cycle_spec now (build ts) (build_heap ts)
  exact ⟨h1.trans ((build_perm ts).filter _), h3, h5⟩

theorem scheduler_loop_conserves (nows : List Int) (c : List AlarmTask) (hc : is_heap c) :
    ((scheduler_loop nows c).1.flatten ++ (scheduler_loop nows c).2).Perm c := by
  induction nows generalizing c with
  | nil => simp [scheduler_loop]
  | cons now later ih =>
    obtain ⟨h1, h2, _, h4, _⟩ := cycle_spec now c hc
    have h := ih (cycle now c).2 h4
    simp only [scheduler_loop, List.flatten_cons, List.append_assoc]
    refine (List.Perm.append_left _ h).trans ?_
    have h5 := drain_spec c.length now c hc (le_refl _)
    exact h5.1

theorem scheduler_loop_nth (before : List Int) (now : Int) (after : List Int)
    (c : List AlarmTask) (hc : is_heap c) :
    ((scheduler_loop (before ++ now :: after) c).1.getD before.length []).Perm
      (c.filter (fun t => decide (t.trigger_time ≤ now) &&
        before.all (fun n => decide (n < t.trigger_time)))) := by
  induction before generalizing c with
  | nil =>
    obtain ⟨h1, _⟩ := cycle_spec now c hc
    simpa [scheduler_loop, due] using h1
  | cons b bs ih =>
    obtain ⟨_, h2, _, h4, _⟩ := cycle_spec b c hc
    have h := ih (cycle b c).2 h4
    simp only [List.cons_append, scheduler_loop, List.length_cons, List.getD_cons_succ]
    refine h.trans ((h2.filter _).trans ?_)
    rw [List.filter_filter]
    apply List.Perm.of_eq
    apply List.filter_congr
    intro t _
    simp only [due, List.all_cons, Bool.not_eq_true', decide_eq_false_iff_not]
    by_cases h1 : t.trigger_time ≤ now <;> by_cases h2 : t.trigger_time ≤ b <;>
      simp [h1, h2, not_le.mp, not_lt.mpr]

/-- C5: one-shot dispatch.  After one cycle at `now` the queue holds exactly the
previously queued tasks with `trigger_time > now` (as a multiset of unchanged
tasks).  Over any sequence of cycles without a `create` in between, the cycle
that follows the clock readings `before` and reads `now` dispatches exactly the
tasks that are due at `now` and were due at none of the earlier readings, and
the tasks dispatched in all cycles together with the tasks left in the queue
are the tasks queued at the start, each once. -/
theorem one_shot_dispatch (ts : List AlarmTask) (before : List Int) (now : Int)
    (after : List Int) :
    (cycle now (build ts)).2.Perm (ts.filter (fun t => decide (now < t.trigger_time))) ∧
    ((scheduler_loop (before ++ now :: after) (build ts)).1.getD before.length []).Perm
      (ts.filter (fun t => decide (t.trigger_time ≤ now) &&
        before.all (fun n => decide (n < t.trigger_time)))) ∧
    ((scheduler_loop (before ++ now :: after) (build ts)).1.flatten ++
      (scheduler_loop (before ++ now :: after) (build ts)).2).Perm ts := by
  have hb := build_heap ts
  have hp := build_perm ts
  refine ⟨?_, ?_, ?_⟩
  · obtain ⟨_, h2, _⟩ := cycle_spec now (build ts) hb
    refine h2.trans ((hp.filter _).trans (List.Perm.of_eq ?_))
    apply List.filter_congr
    intro t _
    by_cases h1 : t.trigger_time ≤ now
    · simp [due, h1, not_lt.mpr h1]
    · simp [due, h1, not_le.mp h1]
  · exact (scheduler_loop_nth before now after (build ts) hb).trans (hp.filter _)
  · exact (scheduler_loop_conserves _ (build ts) hb).trans hp

/-! ## Parsing a time specification -/

/-- C3, counterexample: after `create("a1", "2099-01-01 00:00:00", "echo hi")` the id
`a1` is pending, and a second create with the same id returns true (it does not
fail) and leaves two tasks with the id `a1` in the queue. -/
theorem duplicate_create_succeeds :
    (create_systemd_timer mktime_utc [] "a1" "2099-01-01 00:00:00" "echo hi")
      = (true, [⟨4070908800000000000, "a1", "echo hi"⟩]) ∧
    (create_systemd_timer mktime_utc [⟨4070908800000000000, "a1", "echo hi"⟩] "a1"
        "2099-01-02 00:00:00" "echo again")
      = (true, [⟨4070908800000000000, "a1", "echo hi"⟩,
          ⟨4070995200000000000, "a1", "echo again"⟩]) := by
  decide

/-- C3, amended: a create with an `alarm_id` that is already pending returns
true; every task queued before, the original task of that id included, is
still queued with its `trigger_time` and `command` unchanged, and the number of
queued tasks with that `alarm_id` grows by one, so it is at least two. -/
theorem duplicate_create_keeps_original (mktime : Tm → Int) (tasks : List AlarmTask)
    (alarm_id time_spec command : String) (original : AlarmTask)
    (h : original ∈ tasks) (hid : original.alarm_id = alarm_id) :
    (create_systemd_timer mktime tasks alarm_id time_spec command).1 = true ∧
    (∀ t, (create_systemd_timer mktime tasks alarm_id time_spec command).2.count t
        = (if t = ⟨from_time_t (mktime (get_time tm_zero time_spec).1), alarm_id, command⟩
            then 1 else 0)
          + tasks.count t) ∧
    original ∈ (create_systemd_timer mktime tasks alarm_id time_spec command).2 ∧
    ((create_systemd_timer mktime tasks alarm_id time_spec command).2.countP
        (fun t => decide (t.alarm_id = alarm_id))
      = tasks.countP (fun t => decide (t.alarm_id = alarm_id)) + 1) ∧
    2 ≤ (create_systemd_timer mktime tasks alarm_id time_spec command).2.countP
        (fun t => decide (t.alarm_id = alarm_id)) := by
  have hp := push_perm tasks
    ⟨from_time_t (mktime (get_time tm_zero time_spec).1), alarm_id, command⟩
  have hc : (create_systemd_timer mktime tasks alarm_id time_spec command).2.countP
        (fun t => decide (t.alarm_id = alarm_id))
      = tasks.countP (fun t => decide (t.alarm_id = alarm_id)) + 1 := by
    unfold create_systemd_timer
    rw [hp.countP_eq]
    simp [List.countP_cons]
  have hpos : 0 < tasks.countP (fun t => decide (t.alarm_id = alarm_id)) :=
    List.countP_pos_iff.mpr ⟨original, h, by simpa using hid⟩
  refine ⟨rfl, ?_, ?_, hc, by omega⟩
  · intro t
    unfold create_systemd_timer
    rw [hp.count_eq, List.count_cons]
    split_ifs with h1 h2 h2
    · omega
    · have e := beq_iff_eq.mp h1
      exact absurd e.symm h2
    · have e : ¬ ((⟨from_time_t (mktime (get_time tm_zero time_spec).1), alarm_id, command⟩ :
          AlarmTask) = t) :=
        fun e => h1 (beq_iff_eq.mpr e)
      exact absurd h2.symm e
    · omega
  · exact hp.symm.subset (List.mem_cons_of_mem _ h)

/-- Witness of the amended C3: a second create for the pending id `a1`. -/
theorem duplicate_create_keeps_original_witness :
    (create_systemd_timer mktime_utc [⟨4070908800000000000, "a1", "echo hi"⟩] "a1"
        "2099-01-02 00:00:00" "echo again").1 = true ∧
    (⟨4070908800000000000, "a1", "echo hi"⟩ : AlarmTask) ∈
      (create_systemd_timer mktime_utc [⟨4070908800000000000, "a1", "echo hi"⟩] "a1"
        "2099-01-02 00:00:00" "echo again").2 ∧
    2 ≤ (create_systemd_timer mktime_utc [⟨4070908800000000000, "a1", "echo hi"⟩] "a1"
        "2099-01-02 00:00:00" "echo again").2.countP (fun t => decide (t.alarm_id = "a1")) :=
  have h := duplicate_create_keeps_original mktime_utc
    [⟨4070908800000000000, "a1", "echo hi"⟩] "a1"
    "2099-01-02 00:00:00" "echo again" ⟨4070908800000000000, "a1", "echo hi"⟩ (by decide) rfl
  ⟨h.1, h.2.2.1, h.2.2.2.2⟩

/-- C4, the code at the failing input: `"not-a-date"` is not in the format, the
parse sets the stream's `failbit` and stores nothing, and all the same
`create_systemd_timer` on an empty queue returns true and queues a task, whose
trigger time is `mktime` of the zeroed `tm` (1899-12-31 00:00:00 in UTC, in
nanoseconds). -/
theorem create_malformed_is_accepted :
    well_formed "not-a-date" = false ∧
    get_time tm_zero "not-a-date" = (tm_zero, true) ∧
    create_systemd_timer mktime_utc [] "a2" "not-a-date" "echo hi"
      = (true, [⟨-2209075200000000000, "a2", "echo hi"⟩]) := by
  decide

/-! ## Claims on `execute_task` -/

/-- C7, the code at the failing input: the command `false` ends with a non-zero
status, and `execute_task` returns with nothing written to `std::cerr`; indeed
it writes nothing for any command, whatever its status. -/
theorem execute_task_logs_nothing :
    (system_sample "false" (fun _ => none)).2 ≠ 0 ∧
    (execute_task system_sample "/tmp/alarm_scripts" ⟨0, "a1", "false"⟩ (fun _ => none)).2 = [] ∧
    ∀ (system : String → FileSystem → FileSystem × Int) (temp_dir : String) (task : AlarmTask)
      (fs : FileSystem), (execute_task system temp_dir task fs).2 = [] :=
  ⟨by decide, rfl, fun _ _ _ _ => rfl⟩

/-! ## Claim on the client -/

/-- C10: `AlarmSchedulerClient::create_systemd_timer` is a total function to
`Bool` (every exception ends in `catch (...)`), and it returns true exactly
when the request was serialised and sent, a response with status 200 came back,
its body parses as JSON, and the parsed value is an object whose member
`success` is the boolean true. -/
theorem client_create_true_iff (dump : Json → Option String)
    (post : String → String → String → Option Response) (parse : String → Option Json)
    (alarm_id time_spec command : String) :
    AlarmSchedulerClient.create_systemd_timer dump post parse alarm_id time_spec command = true ↔
    ∃ request res members,
      dump (.object [("alarm_id", .string alarm_id), ("time_spec", .string time_spec),
        ("command", .string command)]) = some request ∧
      post "/create" request "application/json" = some res ∧
      res.status = 200 ∧
      parse res.body = some (.object members) ∧
      members.lookup "success" = some (.bool true) := by
  unfold AlarmSchedulerClient.create_systemd_timer AlarmSchedulerClient.try_create
  constructor
  · intro h
    cases hd : dump (.object [("alarm_id", .string alarm_id), ("time_spec", .string time_spec),
        ("command", .string command)]) with
    | none => simp [hd] at h
    | some request =>
      cases hp : post "/create" request "application/json" with
      | none => simp [hd, hp] at h
      | some res =>
        by_cases hs : res.status = 200
        · cases hj : parse res.body with
          | none => simp [hd, hp, hs, hj] at h
          | some j =>
            cases j with
            | object members =>
              cases hl : members.lookup "success" with
              | none => simp [hd, hp, hs, hj, Json.subscript, hl, Json.get_bool] at h
              | some v =>
                cases v with
                | bool b =>
                  simp [hd, hp, hs, hj, Json.subscript, hl, Json.get_bool] at h
                  subst h
                  exact ⟨request, res, members, rfl, hp, hs, hj, hl⟩
                | _ => simp [hd, hp, hs, hj, Json.subscript, hl, Json.get_bool] at h
            | _ => simp [hd, hp, hs, hj, Json.subscript, Json.get_bool] at h
        · simp [hd, hp, hs] at h
  · rintro ⟨request, res, members, hd, hp, hs, hj, hl⟩
    simp [hd, hp, hs, hj, Json.subscript, hl, Json.get_bool]

/-! ## The scheduler thread and `shutdown` -/

theorem pop_length (c : List AlarmTask) (hc : c ≠ []) : c.length = (pop c).length + 1 := by
  have := (pop_perm c hc).length_eq
  simpa using this

theorem push_heap_loop_fuel (fuel k : Nat) (c : List AlarmTask) (hole : Nat)
    (h : hole ≤ fuel) : push_heap_loop (fuel + k) c hole = push_heap_loop fuel c hole := by
  induction fuel generalizing c hole with
  | zero =>
    have h0 : hole = 0 := by omega
    subst h0
    cases k with
    | zero => rfl
    | succ k => simp [push_heap_loop]
  | succ n ih =>
    have e : n + 1 + k = (n + k) + 1 := by omega
    rw [e]
    unfold push_heap_loop
    split_ifs with hc
    · exact ih _ _ (by have := parent_lt hole hc.1; omega)
    · rfl

theorem adjust_heap_fuel (fuel k : Nat) (c : List AlarmTask) (hole : Nat)
    (h : c.length ≤ hole + fuel + 1) :
    adjust_heap (fuel + k) c hole c.length = adjust_heap fuel c hole c.length := by
  induction fuel generalizing c hole with
  | zero =>
    cases k with
    | zero => rfl
    | succ k =>
      simp only [Nat.zero_add]
      unfold adjust_heap
      rw [if_neg (by omega), if_neg (by omega)]
  | succ n ih =>
    have e : n + 1 + k = (n + k) + 1 := by omega
    rw [e]
    unfold adjust_heap
    split_ifs with h1 h2
    · have hm : 2 * hole + 1 ≤ second_child c hole := by
        rcases second_child_cases c hole with ⟨e2, _⟩ | ⟨e2, _⟩ <;> omega
      have := ih (swapAt c hole (second_child c hole)) (second_child c hole)
        (by rw [length_swapAt]; omega)
      rw [length_swapAt] at this
      exact this
    · rfl
    · rfl

theorem drain_fuel (fuel k : Nat) (now : Int) (c : List AlarmTask) (h : c.length ≤ fuel) :
    drain (fuel + k) now c = drain fuel now c := by
  induction fuel generalizing c with
  | zero =>
    have : c = [] := List.length_eq_zero.mp (by omega)
    subst this
    cases k with
    | zero => rfl
    | succ k => simp [drain, drain_step, empty]
  | succ n ih =>
    have e : n + 1 + k = (n + k) + 1 := by omega
    rw [e]
    unfold drain
    cases hstep : drain_step now c with
    | none => rfl
    | some p =>
      obtain ⟨task, rest⟩ := p
      obtain ⟨hne, _, _, hrest⟩ := drain_step_some now c task rest hstep
      have hl := pop_length c hne
      simp only []
      rw [ih rest (by rw [hrest]; omega)]

/-! ## Claim on `IcalManager::fetch_and_parse_events` -/

theorem substr_front_eq_iff (title keyword : String) :
    substr_front title keyword.length = keyword ↔
      keyword.toList.isPrefixOf title.toList = true := by
  rw [List.isPrefixOf_iff_prefix, List.prefix_iff_eq_take]
  unfold substr_front
  constructor
  · intro h
    have := congrArg String.toList h
    exact this.symm
  · intro h
    apply String.ext
    exact h.symm

theorem first_property_isSome (vevent : List IcalProperty) (kind : PropertyKind) :
    (icalcomponent_get_first_property vevent kind).isSome = has_property vevent kind := by
  unfold icalcomponent_get_first_property has_property
  rw [Bool.eq_iff_iff, List.find?_isSome, List.any_eq_true]

/-- The loop body pushes the event of a VEVENT exactly when the VEVENT qualifies. -/
theorem visit_vevent_eq (alarm_keyword : String) (events : List IcalManager.Event)
    (vevent : List IcalProperty) :
    IcalManager.visit_vevent alarm_keyword events vevent
      = events ++ (if qualifies alarm_keyword vevent = true then [event_of vevent] else []) := by
  unfold IcalManager.visit_vevent qualifies event_of summary_of
  rw [first_property_isSome, first_property_isSome, first_property_isSome]
  unfold icalcomponent_get_first_property
  cases hs : vevent.find? (fun p => decide (p.kind = .summary)) with
  | none => simp
  | some summary =>
    simp only [Option.map_some', Option.getD_some]
    have e1 : (!summary.value.isEmpty) = decide (summary.value ≠ "") := by
      rw [Bool.eq_iff_iff, Bool.not_eq_true', decide_eq_true_iff]
      have := String.isEmpty_iff summary.value
      constructor
      · intro hf he
        rw [this.mpr he] at hf
        exact Bool.noConfusion hf
      · intro hne
        cases hb : summary.value.isEmpty with
        | false => rfl
        | true => exact absurd (this.mp hb) hne
    have e2 : decide (substr_front summary.value alarm_keyword.length = alarm_keyword)
        = alarm_keyword.toList.isPrefixOf summary.value.toList := by
      rw [Bool.eq_iff_iff, decide_eq_true_iff]
      exact substr_front_eq_iff _ _
    rw [e1, e2]
    by_cases h1 : (decide (summary.value ≠ "") &&
        alarm_keyword.toList.isPrefixOf summary.value.toList) = true
    · by_cases h2 : (has_property vevent .dtstart && has_property vevent .dtend &&
          has_property vevent .uid) = true
      · have h3 : (decide (summary.value ≠ "") &&
            alarm_keyword.toList.isPrefixOf summary.value.toList &&
            has_property vevent .dtstart && has_property vevent .dtend &&
            has_property vevent .uid) = true := by
          simp only [Bool.and_eq_true] at h1 h2 ⊢
          exact ⟨⟨⟨h1, h2.1.1⟩, h2.1.2⟩, h2.2⟩
        rw [if_pos h1, if_pos h2, if_pos h3]
      · have h3 : ¬ (decide (summary.value ≠ "") &&
            alarm_keyword.toList.isPrefixOf summary.value.toList &&
            has_property vevent .dtstart && has_property vevent .dtend &&
            has_property vevent .uid) = true := by
          simp only [Bool.and_eq_true] at h1 h2 ⊢
          rintro ⟨⟨⟨_, a⟩, b⟩, c⟩
          exact h2 ⟨⟨a, b⟩, c⟩
        rw [if_pos h1, if_neg h2, if_neg h3, List.append_nil]
    · have h3 : ¬ (decide (summary.value ≠ "") &&
          alarm_keyword.toList.isPrefixOf summary.value.toList &&
          has_property vevent .dtstart && has_property vevent .dtend &&
          has_property vevent .uid) = true := by
        simp only [Bool.and_eq_true] at h1 ⊢
        rintro ⟨⟨⟨a, _⟩, _⟩, _⟩
        exact h1 a
      rw [if_neg h1, if_neg h3, List.append_nil]

theorem visit_all_eq (alarm_keyword : String) (cal : List (List IcalProperty))
    (events : List IcalManager.Event) :
    cal.foldl (IcalManager.visit_vevent alarm_keyword) events
      = events ++ (cal.filter (qualifies alarm_keyword)).map event_of := by
  induction cal generalizing events with
  | nil => simp
  | cons v vs ih =>
    rw [List.foldl_cons, ih, visit_vevent_eq]
    by_cases h : qualifies alarm_keyword v = true
    · simp [h, List.filter_cons]
    · simp [h, List.filter_cons]

theorem qualifies_title (alarm_keyword : String) (vevent : List IcalProperty)
    (h : qualifies alarm_keyword vevent = true) :
    ∃ rest, (event_of vevent).title = alarm_keyword ++ rest := by
  unfold qualifies at h
  unfold event_of
  cases hs : summary_of vevent with
  | none => rw [hs] at h; simp at h
  | some title =>
    rw [hs] at h
    simp only [Bool.and_eq_true] at h
    obtain ⟨⟨⟨⟨_, hp⟩, _⟩, _⟩, _⟩ := h
    rw [List.isPrefixOf_iff_prefix] at hp
    obtain ⟨rest, hr⟩ := hp
    refine ⟨⟨rest⟩, ?_⟩
    apply String.ext
    simpa using hr.symm

/-- C11: for every parsed calendar (its VEVENT components in order) and every
`alarm_keyword`, every event returned by `IcalManager::fetch_and_parse_events`
has a title that begins with `alarm_keyword`, and the returned events are, up
to their order, exactly one event per VEVENT that has a non-empty SUMMARY
beginning with `alarm_keyword` and DTSTART, DTEND and UID properties, each
event carrying the SUMMARY of its VEVENT as title. -/
theorem fetch_and_parse_events_filters (alarm_keyword : String)
    (cal : List (List IcalProperty)) :
    (∀ e ∈ IcalManager.fetch_and_parse_events alarm_keyword cal,
      ∃ rest, e.title = alarm_keyword ++ rest) ∧
    (IcalManager.fetch_and_parse_events alarm_keyword cal).Perm
      ((cal.filter (qualifies alarm_keyword)).map event_of) := by
  have hp : (IcalManager.fetch_and_parse_events alarm_keyword cal).Perm
      ((cal.filter (qualifies alarm_keyword)).map event_of) := by
    unfold IcalManager.fetch_and_parse_events
    rw [visit_all_eq, List.nil_append]
    exact List.perm_insertionSort _ _
  refine ⟨?_, hp⟩
  intro e he
  have hm := hp.subset he
  obtain ⟨v, hv, rfl⟩ := List.mem_map.mp hm
  exact qualifies_title alarm_keyword v (List.mem_filter.mp hv).2

end AlarmClock
